import Mathlib

/-!
Verification of the AICanvas minimap coordinate engine, history persistence
and thumbnail sizing against their natural-language specification.

The source is TypeScript; JavaScript numbers are modelled by exact rationals
(the spec's properties are stated "up to floating-point rounding", which the
exact-rational idealization captures).  Fallible or gated handlers are
modelled with `Option`.
-/

namespace AICanvas

/-- Point in the plane (used for offsets, pointer positions, world points). -/
structure Point where
  x : ℚ
  y : ℚ
  deriving DecidableEq, Repr

/-- Rect as in the Minimap component: `{x, y, width, height}`. -/
structure Rect where
  x : ℚ
  y : ℚ
  width : ℚ
  height : ℚ
  deriving DecidableEq, Repr

/-- Layer type enum (spec §3); the minimap only distinguishes `group` from
the rest. -/
inductive LayerType where
  | image | video | audio | note | group | drawing | text
  deriving DecidableEq, Repr

/-- LayerData (imported from `../types`, which is outside the provided
sources): the fields the minimap, persistence and render-order code read.
Spec §3 calls this LayerSummary. -/
structure LayerData where
  id : String
  type : LayerType
  x : ℚ
  y : ℚ
  width : ℚ
  height : ℚ
  isLoading : Bool := false
  deriving DecidableEq, Repr

def MINIMAP_WIDTH : ℚ := 200

def MINIMAP_HEIGHT : ℚ := 150

/-- Source: `getViewportInWorld` — world-space rectangle visible on the main
canvas, from the canvas offset, scale and the window's inner size. -/
def getViewportInWorld (canvasOffset : Point) (scale innerWidth innerHeight : ℚ) : Rect :=
  { x := -canvasOffset.x / scale
    y := -canvasOffset.y / scale
    width := innerWidth / scale
    height := innerHeight / scale }

/-- Source: `contentBounds` (useMemo) — union of all layer boxes and the
viewport, inflated by 10% of the larger extent.  The JS loop starts its
min/max fold at `Infinity`/`-Infinity`; on a nonempty list this equals
starting the fold at the head layer's values, which is how the nonempty
branch is written here. -/
def contentBounds (layers : List LayerData) (viewport : Rect) : Rect :=
  match layers with
  | [] =>
    let padding := max viewport.width viewport.height * 0.1
    { x := viewport.x - padding
      y := viewport.y - padding
      width := viewport.width + padding * 2
      height := viewport.height + padding * 2 }
  | l :: ls =>
    let minX := ls.foldl (fun acc t => min acc t.x) l.x
    let minY := ls.foldl (fun acc t => min acc t.y) l.y
    let maxX := ls.foldl (fun acc t => max acc (t.x + t.width)) (l.x + l.width)
    let maxY := ls.foldl (fun acc t => max acc (t.y + t.height)) (l.y + l.height)
    let minX := min minX viewport.x
    let minY := min minY viewport.y
    let maxX := max maxX (viewport.x + viewport.width)
    let maxY := max maxY (viewport.y + viewport.height)
    let contentWidth := maxX - minX
    let contentHeight := maxY - minY
    let padding := max contentWidth contentHeight * 0.1
    { x := minX - padding
      y := minY - padding
      width := contentWidth + padding * 2
      height := contentHeight + padding * 2 }

/-- Source: the `fitScale` expression recomputed identically at the top of
both `worldToMinimap` and `minimapToWorld`; factored once here.  Note the
source divides by `contentBounds.width`/`.height` with no guard against a
zero extent. -/
def fitScale (bounds : Rect) (minimapZoom : ℚ) : ℚ :=
  min (MINIMAP_WIDTH / bounds.width) (MINIMAP_HEIGHT / bounds.height) * minimapZoom

/-- Result record of `worldToMinimap`: `{x, y, scale}`. -/
structure MinimapPos where
  x : ℚ
  y : ℚ
  scale : ℚ
  deriving DecidableEq, Repr

/-- Source: `worldToMinimap`. -/
def worldToMinimap (bounds : Rect) (minimapZoom worldX worldY : ℚ) : MinimapPos :=
  let fs := fitScale bounds minimapZoom
  let scaledWidth := bounds.width * fs
  let scaledHeight := bounds.height * fs
  let offsetX := (MINIMAP_WIDTH - scaledWidth) / 2
  let offsetY := (MINIMAP_HEIGHT - scaledHeight) / 2
  { x := (worldX - bounds.x) * fs + offsetX
    y := (worldY - bounds.y) * fs + offsetY
    scale := fs }

/-- Source: `minimapToWorld`. -/
def minimapToWorld (bounds : Rect) (minimapZoom minimapX minimapY : ℚ) : Point :=
  let fs := fitScale bounds minimapZoom
  let scaledWidth := bounds.width * fs
  let scaledHeight := bounds.height * fs
  let offsetX := (MINIMAP_WIDTH - scaledWidth) / 2
  let offsetY := (MINIMAP_HEIGHT - scaledHeight) / 2
  { x := (minimapX - offsetX) / fs + bounds.x
    y := (minimapY - offsetY) / fs + bounds.y }

/-- Source: `handleMinimapClick` — gated on no drag being in progress, then
converts the widget-local click point to world coordinates and emits the
offset centering it.  (`getBoundingClientRect` merely localizes the event
coordinates; the model takes the widget-local point directly.) -/
def handleMinimapClick (isDraggingViewport : Bool) (minimapX minimapY : ℚ)
    (bounds : Rect) (minimapZoom scale innerWidth innerHeight : ℚ) : Option Point :=
  if isDraggingViewport then none
  else
    let worldPos := minimapToWorld bounds minimapZoom minimapX minimapY
    some { x := innerWidth / 2 - worldPos.x * scale
           y := innerHeight / 2 - worldPos.y * scale }

/-- Source: `handleViewportMouseDown` — stores into `dragOffsetRef` the
offset from the pointer to the viewport marker's center. -/
def handleViewportMouseDown (pointer viewportCenter : Point) : Point :=
  { x := pointer.x - viewportCenter.x
    y := pointer.y - viewportCenter.y }

/-- Source: `handleMouseMove` — gated on a drag being in progress; subtracts
the stored grab offset, converts to world coordinates and emits the
centering offset. -/
def handleMouseMove (isDraggingViewport : Bool) (pointer dragOffset : Point)
    (bounds : Rect) (minimapZoom scale innerWidth innerHeight : ℚ) : Option Point :=
  if !isDraggingViewport then none
  else
    let minimapX := pointer.x - dragOffset.x
    let minimapY := pointer.y - dragOffset.y
    let worldCenter := minimapToWorld bounds minimapZoom minimapX minimapY
    some { x := innerWidth / 2 - worldCenter.x * scale
           y := innerHeight / 2 - worldCenter.y * scale }

/-- Source: initial minimap zoom, `useState(1)`. -/
def minimapZoomInit : ℚ := 1

/-- Source: `handleWheel` — one wheel step of the minimap zoom state. -/
def handleWheel (minimapZoom deltaY : ℚ) : ℚ :=
  let zoomDelta := -deltaY * 0.002
  min (max (minimapZoom + zoomDelta) 0.5) 3

/-- Zoom state reached from the initial value after a sequence of wheel
events (the only mutations of `minimapZoom`). -/
def zoomAfter (deltas : List ℚ) : ℚ :=
  deltas.foldl handleWheel minimapZoomInit

end AICanvas

namespace AICanvas

/-- C7: with zero layers, contentBounds is the viewport inflated on each side
by 0.1 times its larger dimension. -/
theorem contentBounds_empty_layers (v : Rect) :
    (contentBounds [] v).x = v.x - 0.1 * max v.width v.height ∧
    (contentBounds [] v).y = v.y - 0.1 * max v.width v.height ∧
    (contentBounds [] v).width = v.width + 2 * (0.1 * max v.width v.height) ∧
    (contentBounds [] v).height = v.height + 2 * (0.1 * max v.width v.height) := by
  simp only [contentBounds]
  refine ⟨by ring, by ring, by ring, by ring⟩

/-- Positivity of the fit scale for non-degenerate bounds and zoom in the
clamp range. -/
theorem fitScale_pos (b : Rect) (zoom : ℚ) (hw : 0 < b.width) (hh : 0 < b.height)
    (hz : 1/2 ≤ zoom) : 0 < fitScale b zoom := by
  unfold fitScale MINIMAP_WIDTH MINIMAP_HEIGHT
  have h1 : 0 < (200 : ℚ) / b.width := by positivity
  have h2 : 0 < (150 : ℚ) / b.height := by positivity
  have h3 : 0 < zoom := by linarith
  exact mul_pos (lt_min h1 h2) h3

/-- C1: for non-degenerate bounds and zoom in the clamp range, mapping a
world point to the minimap and back returns the point exactly. -/
theorem minimapToWorld_worldToMinimap (b : Rect) (zoom px py : ℚ)
    (hw : 0 < b.width) (hh : 0 < b.height) (hz : 1/2 ≤ zoom) (hz3 : zoom ≤ 3) :
    minimapToWorld b zoom (worldToMinimap b zoom px py).x (worldToMinimap b zoom px py).y
      = ⟨px, py⟩ := by
  have hfs : fitScale b zoom ≠ 0 := ne_of_gt (fitScale_pos b zoom hw hh hz)
  simp only [minimapToWorld, worldToMinimap, Point.mk.injEq]
  constructor <;> field_simp

/-- Witness for C1 at concrete bounds, zoom and point. -/
theorem minimapToWorld_worldToMinimap_witness :
    minimapToWorld ⟨-3, 4, 50, 60⟩ 2
        (worldToMinimap ⟨-3, 4, 50, 60⟩ 2 7 9).x
        (worldToMinimap ⟨-3, 4, 50, 60⟩ 2 7 9).y = ⟨7, 9⟩ :=
  minimapToWorld_worldToMinimap ⟨-3, 4, 50, 60⟩ 2 7 9 (by norm_num) (by norm_num)
    (by norm_num) (by norm_num)

/-- C2 evaluation: the source has no minimum-extent substitution — zero
extents flow straight into the divisions `MINIMAP_WIDTH / bounds.width` and
`MINIMAP_HEIGHT / bounds.height`.  On bounds of width 0 and height 0 the
division by zero happens (JavaScript yields `fitScale = Infinity` and NaN
coordinates; in the exact-rational model the division-by-zero convention
collapses `fitScale` to 0), the fit scale is not positive, and the
conversions are not well-defined: the round trip fails at world point
(1, 0). -/
theorem fitScale_zero_extent_unguarded :
    fitScale ⟨0, 0, 0, 0⟩ 1 = 0 ∧
    ¬ 0 < fitScale ⟨0, 0, 0, 0⟩ 1 ∧
    minimapToWorld ⟨0, 0, 0, 0⟩ 1 (worldToMinimap ⟨0, 0, 0, 0⟩ 1 1 0).x
      (worldToMinimap ⟨0, 0, 0, 0⟩ 1 1 0).y ≠ ⟨1, 0⟩ := by
  have hfs : fitScale ⟨0, 0, 0, 0⟩ 1 = 0 := by
    simp [fitScale, MINIMAP_WIDTH, MINIMAP_HEIGHT]
  refine ⟨hfs, by rw [hfs]; exact lt_irrefl 0, ?_⟩
  simp [minimapToWorld, worldToMinimap, hfs, Point.mk.injEq]

/-- C4: with no drag in progress, the click handler emits exactly the offset
(innerWidth/2 - wx*scale, innerHeight/2 - wy*scale) for the world point
(wx, wy) the click maps to, and that offset centers the world point in the
physical viewport: -offset.x/scale = wx - innerWidth/(2*scale), and
symmetrically for y. -/
theorem handleMinimapClick_centers (b : Rect) (zoom mx my scale innerW innerH : ℚ)
    (hs : scale ≠ 0) :
    handleMinimapClick false mx my b zoom scale innerW innerH =
      some ⟨innerW / 2 - (minimapToWorld b zoom mx my).x * scale,
            innerH / 2 - (minimapToWorld b zoom mx my).y * scale⟩ ∧
    ∀ off : Point, handleMinimapClick false mx my b zoom scale innerW innerH = some off →
      -off.x / scale = (minimapToWorld b zoom mx my).x - innerW / (2 * scale) ∧
      -off.y / scale = (minimapToWorld b zoom mx my).y - innerH / (2 * scale) := by
  refine ⟨rfl, ?_⟩
  intro off hoff
  simp only [handleMinimapClick, Bool.false_eq_true, if_false, Option.some.injEq] at hoff
  subst hoff
  constructor <;> field_simp <;> ring

/-- Witness for C4 at a concrete click. -/
theorem handleMinimapClick_centers_witness :
    handleMinimapClick false 20 30 ⟨0, 0, 200, 150⟩ 1 2 800 600 =
      some ⟨800 / 2 - (minimapToWorld ⟨0, 0, 200, 150⟩ 1 20 30).x * 2,
            600 / 2 - (minimapToWorld ⟨0, 0, 200, 150⟩ 1 20 30).y * 2⟩ :=
  (handleMinimapClick_centers ⟨0, 0, 200, 150⟩ 1 20 30 2 800 600 (by norm_num)).1

/-- Every single wheel step lands in the clamp range [1/2, 3]. -/
theorem handleWheel_mem_range (z d : ℚ) :
    1/2 ≤ handleWheel z d ∧ handleWheel z d ≤ 3 := by
  unfold handleWheel
  constructor
  · refine le_min ?_ (by norm_num)
    calc (1/2 : ℚ) = 0.5 := by norm_num
    _ ≤ max (z + -d * 0.002) 0.5 := le_max_right _ _
  · exact min_le_right _ _

/-- Auxiliary fold invariant: folding wheel steps from any zoom in the clamp
range stays in the clamp range. -/
theorem foldl_handleWheel_mem_range (ds : List ℚ) :
    ∀ z : ℚ, 1/2 ≤ z → z ≤ 3 →
      1/2 ≤ ds.foldl handleWheel z ∧ ds.foldl handleWheel z ≤ 3 := by
  induction ds with
  | nil => intro z h1 h2; exact ⟨h1, h2⟩
  | cons d ds ih =>
    intro z _ _
    exact ih (handleWheel z d) (handleWheel_mem_range z d).1 (handleWheel_mem_range z d).2

/-- C5: the minimap zoom starts at 1, each wheel step is the clamped update
zoom + (-deltaY * 0.002) clamped to [1/2, 3], after any sequence of wheel
events the zoom stays in [1/2, 3], each step moves the zoom in the direction
of the sign of the wheel delta, and an update whose unclamped value already
lies in the range is applied exactly. -/
theorem minimapZoom_clamped (deltas : List ℚ) (z d : ℚ)
    (hz : 1/2 ≤ z) (hz3 : z ≤ 3) :
    minimapZoomInit = 1 ∧
    handleWheel z d = min (max (z + -d * 0.002) 0.5) 3 ∧
    (1/2 ≤ zoomAfter deltas ∧ zoomAfter deltas ≤ 3) ∧
    (d ≤ 0 → z ≤ handleWheel z d) ∧
    (0 ≤ d → handleWheel z d ≤ z) ∧
    (1/2 ≤ z + -d * 0.002 → z + -d * 0.002 ≤ 3 →
      handleWheel z d = z + -d * 0.002) := by
  refine ⟨rfl, rfl, ?_, ?_, ?_, ?_⟩
  · unfold zoomAfter
    exact foldl_handleWheel_mem_range deltas minimapZoomInit
      (by norm_num [minimapZoomInit]) (by norm_num [minimapZoomInit])
  · intro hd
    unfold handleWheel
    have hdelta : 0 ≤ -d * 0.002 := by nlinarith
    refine le_min ?_ hz3
    calc z ≤ z + -d * 0.002 := by linarith
    _ ≤ max (z + -d * 0.002) 0.5 := le_max_left _ _
  · intro hd
    unfold handleWheel
    have hdelta : -d * 0.002 ≤ 0 := by nlinarith
    have h05 : (0.5 : ℚ) = 1/2 := by norm_num
    have hmax : max (z + -d * 0.002) 0.5 ≤ z := by
      refine max_le (by linarith) ?_
      rw [h05]; exact hz
    calc min (max (z + -d * 0.002) 0.5) 3 ≤ max (z + -d * 0.002) 0.5 := min_le_left _ _
    _ ≤ z := hmax
  · intro h1 h2
    show min (max (z + -d * 0.002) 0.5) 3 = z + -d * 0.002
    have h05 : (0.5 : ℚ) ≤ z + -d * 0.002 := by
      have : (0.5 : ℚ) = 1/2 := by norm_num
      rw [this]; exact h1
    rw [max_eq_left h05]
    exact min_eq_left h2

/-- Witness for C5 at a concrete wheel sequence and step. -/
theorem minimapZoom_clamped_witness :
    1/2 ≤ zoomAfter [100, -300, 5000] ∧ zoomAfter [100, -300, 5000] ≤ 3 :=
  (minimapZoom_clamped [100, -300, 5000] 1 5 (by norm_num) (by norm_num)).2.2.1

/-- Membership of a point in a rectangle, reading `Rect` as the world box
[x, x+width] × [y, y+height]. -/
def rectContains (r : Rect) (px py : ℚ) : Prop :=
  r.x ≤ px ∧ px ≤ r.x + r.width ∧ r.y ≤ py ∧ py ≤ r.y + r.height

/-- Auxiliary name for the min-x accumulator of the nonempty branch of
`contentBounds` (after folding in the viewport). -/
def boundsMinX (l0 : LayerData) (ls : List LayerData) (v : Rect) : ℚ :=
  min (ls.foldl (fun acc t => min acc t.x) l0.x) v.x

/-- Auxiliary name for the min-y accumulator of `contentBounds`. -/
def boundsMinY (l0 : LayerData) (ls : List LayerData) (v : Rect) : ℚ :=
  min (ls.foldl (fun acc t => min acc t.y) l0.y) v.y

/-- Auxiliary name for the max-x accumulator of `contentBounds`. -/
def boundsMaxX (l0 : LayerData) (ls : List LayerData) (v : Rect) : ℚ :=
  max (ls.foldl (fun acc t => max acc (t.x + t.width)) (l0.x + l0.width)) (v.x + v.width)

/-- Auxiliary name for the max-y accumulator of `contentBounds`. -/
def boundsMaxY (l0 : LayerData) (ls : List LayerData) (v : Rect) : ℚ :=
  max (ls.foldl (fun acc t => max acc (t.y + t.height)) (l0.y + l0.height)) (v.y + v.height)

/-- Auxiliary name for the 10% padding of `contentBounds`. -/
def boundsPadding (l0 : LayerData) (ls : List LayerData) (v : Rect) : ℚ :=
  max (boundsMaxX l0 ls v - boundsMinX l0 ls v) (boundsMaxY l0 ls v - boundsMinY l0 ls v) * 0.1

/-- Unfolding of the nonempty branch of `contentBounds` through the named
accumulators. -/
theorem contentBounds_cons (l0 : LayerData) (ls : List LayerData) (v : Rect) :
    contentBounds (l0 :: ls) v =
      { x := boundsMinX l0 ls v - boundsPadding l0 ls v
        y := boundsMinY l0 ls v - boundsPadding l0 ls v
        width := (boundsMaxX l0 ls v - boundsMinX l0 ls v) + boundsPadding l0 ls v * 2
        height := (boundsMaxY l0 ls v - boundsMinY l0 ls v) + boundsPadding l0 ls v * 2 } :=
  rfl

/-- Folding min over a list never exceeds the initial accumulator. -/
theorem foldl_min_le_init (g : LayerData → ℚ) (ls : List LayerData) (init : ℚ) :
    ls.foldl (fun acc t => min acc (g t)) init ≤ init := by
  induction ls generalizing init with
  | nil => simp
  | cons a as ih =>
    rw [List.foldl_cons]
    exact le_trans (ih (min init (g a))) (min_le_left _ _)

/-- Folding min over a list is below the value of every member. -/
theorem foldl_min_le_mem (g : LayerData → ℚ) :
    ∀ (ls : List LayerData) (init : ℚ) (t : LayerData), t ∈ ls →
      ls.foldl (fun acc l => min acc (g l)) init ≤ g t := by
  intro ls
  induction ls with
  | nil => intro init t ht; cases ht
  | cons a as ih =>
    intro init t ht
    rw [List.foldl_cons]
    rcases List.mem_cons.mp ht with h | h
    · subst h
      exact le_trans (foldl_min_le_init g as _) (min_le_right _ _)
    · exact ih _ t h

/-- Folding max over a list is at least the initial accumulator. -/
theorem le_foldl_max_init (g : LayerData → ℚ) (ls : List LayerData) (init : ℚ) :
    init ≤ ls.foldl (fun acc t => max acc (g t)) init := by
  induction ls generalizing init with
  | nil => simp
  | cons a as ih =>
    rw [List.foldl_cons]
    exact le_trans (le_max_left _ _) (ih (max init (g a)))

/-- Folding max over a list dominates the value of every member. -/
theorem le_foldl_max_mem (g : LayerData → ℚ) :
    ∀ (ls : List LayerData) (init : ℚ) (t : LayerData), t ∈ ls →
      g t ≤ ls.foldl (fun acc l => max acc (g l)) init := by
  intro ls
  induction ls with
  | nil => intro init t ht; cases ht
  | cons a as ih =>
    intro init t ht
    rw [List.foldl_cons]
    rcases List.mem_cons.mp ht with h | h
    · subst h
      exact le_trans (le_max_right _ _) (le_foldl_max_init g as _)
    · exact ih _ t h

/-- C6: the computed content bounds contain every point of every layer's
rectangle and every point of the viewport rectangle (for an actual viewport,
whose width and height are nonnegative). -/
theorem contentBounds_contains (layers : List LayerData) (v : Rect)
    (hvw : 0 ≤ v.width) (hvh : 0 ≤ v.height) :
    (∀ l ∈ layers, ∀ px py : ℚ,
        rectContains ⟨l.x, l.y, l.width, l.height⟩ px py →
        rectContains (contentBounds layers v) px py) ∧
    (∀ px py : ℚ, rectContains v px py → rectContains (contentBounds layers v) px py) := by
  cases layers with
  | nil =>
    have hpad : 0 ≤ max v.width v.height * 0.1 := by
      have h1 : (0 : ℚ) ≤ max v.width v.height := le_trans hvw (le_max_left _ _)
      have h2 : (0 : ℚ) ≤ 0.1 := by norm_num
      exact mul_nonneg h1 h2
    constructor
    · intro l hl; cases hl
    · intro px py hp
      obtain ⟨h1, h2, h3, h4⟩ := hp
      show rectContains (contentBounds [] v) px py
      simp only [contentBounds, rectContains]
      refine ⟨by linarith, by linarith, by linarith, by linarith⟩
  | cons l0 ls =>
    have hminx_v : boundsMinX l0 ls v ≤ v.x := min_le_right _ _
    have hminy_v : boundsMinY l0 ls v ≤ v.y := min_le_right _ _
    have hmaxx_v : v.x + v.width ≤ boundsMaxX l0 ls v := le_max_right _ _
    have hmaxy_v : v.y + v.height ≤ boundsMaxY l0 ls v := le_max_right _ _
    have hpad : 0 ≤ boundsPadding l0 ls v := by
      have hcw : 0 ≤ boundsMaxX l0 ls v - boundsMinX l0 ls v := by linarith
      have h1 : (0 : ℚ) ≤ max (boundsMaxX l0 ls v - boundsMinX l0 ls v)
          (boundsMaxY l0 ls v - boundsMinY l0 ls v) :=
        le_trans hcw (le_max_left _ _)
      have h2 : (0 : ℚ) ≤ 0.1 := by norm_num
      exact mul_nonneg h1 h2
    have hminx_l : ∀ l ∈ l0 :: ls, boundsMinX l0 ls v ≤ l.x := by
      intro l hl
      rcases List.mem_cons.mp hl with h | h
      · rw [h]
        exact le_trans (min_le_left _ _) (foldl_min_le_init (fun t => t.x) ls l0.x)
      · exact le_trans (min_le_left _ _) (foldl_min_le_mem (fun t => t.x) ls l0.x l h)
    have hminy_l : ∀ l ∈ l0 :: ls, boundsMinY l0 ls v ≤ l.y := by
      intro l hl
      rcases List.mem_cons.mp hl with h | h
      · rw [h]
        exact le_trans (min_le_left _ _) (foldl_min_le_init (fun t => t.y) ls l0.y)
      · exact le_trans (min_le_left _ _) (foldl_min_le_mem (fun t => t.y) ls l0.y l h)
    have hmaxx_l : ∀ l ∈ l0 :: ls, l.x + l.width ≤ boundsMaxX l0 ls v := by
      intro l hl
      rcases List.mem_cons.mp hl with h | h
      · rw [h]
        exact le_trans (le_foldl_max_init (fun t => t.x + t.width) ls (l0.x + l0.width))
          (le_max_left _ _)
      · exact le_trans (le_foldl_max_mem (fun t => t.x + t.width) ls (l0.x + l0.width) l h)
          (le_max_left _ _)
    have hmaxy_l : ∀ l ∈ l0 :: ls, l.y + l.height ≤ boundsMaxY l0 ls v := by
      intro l hl
      rcases List.mem_cons.mp hl with h | h
      · rw [h]
        exact le_trans (le_foldl_max_init (fun t => t.y + t.height) ls (l0.y + l0.height))
          (le_max_left _ _)
      · exact le_trans (le_foldl_max_mem (fun t => t.y + t.height) ls (l0.y + l0.height) l h)
          (le_max_left _ _)
    constructor
    · intro l hl px py hp
      obtain ⟨h1, h2, h3, h4⟩ := hp
      have hx := hminx_l l hl
      have hy := hminy_l l hl
      have hx2 := hmaxx_l l hl
      have hy2 := hmaxy_l l hl
      rw [contentBounds_cons]
      exact ⟨by simp only; linarith, by simp only; linarith,
             by simp only; linarith, by simp only; linarith⟩
    · intro px py hp
      obtain ⟨h1, h2, h3, h4⟩ := hp
      rw [contentBounds_cons]
      exact ⟨by simp only; linarith, by simp only; linarith,
             by simp only; linarith, by simp only; linarith⟩

/-- Witness for C6 at a concrete layer set, viewport and point. -/
theorem contentBounds_contains_witness :
    rectContains (contentBounds [⟨"a", LayerType.image, -100, 50, 30, 40, false⟩]
      ⟨0, 0, 800, 600⟩) 400 300 :=
  (contentBounds_contains [⟨"a", LayerType.image, -100, 50, 30, 40, false⟩]
    ⟨0, 0, 800, 600⟩ (by norm_num) (by norm_num)).2 400 300
    (by refine ⟨?_, ?_, ?_, ?_⟩ <;> norm_num)

/-- C8: starting a drag with the pointer at the viewport marker's on-screen
center stores a zero grab offset, and a subsequent pointer move by (dx, dy)
with the transform parameters fixed emits an offset whose implied world
center sits exactly (dx/fitScale, dy/fitScale) away from the marker's world
center at drag start. -/
theorem drag_continuity (b : Rect) (zoom scale innerW innerH : ℚ) (p0 : Point)
    (dx dy : ℚ) (hw : 0 < b.width) (hh : 0 < b.height)
    (hz : 1/2 ≤ zoom) (hz3 : zoom ≤ 3) (hs : scale ≠ 0) :
    handleViewportMouseDown p0 p0 = ⟨0, 0⟩ ∧
    ∀ off : Point,
      handleMouseMove true ⟨p0.x + dx, p0.y + dy⟩ (handleViewportMouseDown p0 p0)
          b zoom scale innerW innerH = some off →
      (innerW / 2 - off.x) / scale - (minimapToWorld b zoom p0.x p0.y).x
          = dx / fitScale b zoom ∧
      (innerH / 2 - off.y) / scale - (minimapToWorld b zoom p0.x p0.y).y
          = dy / fitScale b zoom := by
  have hgrab : handleViewportMouseDown p0 p0 = ⟨0, 0⟩ := by
    simp [handleViewportMouseDown]
  refine ⟨hgrab, ?_⟩
  intro off hoff
  have hfs : fitScale b zoom ≠ 0 := ne_of_gt (fitScale_pos b zoom hw hh hz)
  rw [hgrab] at hoff
  simp only [handleMouseMove, Bool.not_true, Bool.false_eq_true, if_false,
    Option.some.injEq] at hoff
  subst hoff
  simp only [minimapToWorld]
  constructor <;> field_simp <;> ring

/-- Witness for C8 at a concrete drag. -/
theorem drag_continuity_witness :
    handleViewportMouseDown ⟨100, 75⟩ ⟨100, 75⟩ = ⟨0, 0⟩ ∧
    ∀ off : Point,
      handleMouseMove true ⟨(100 : ℚ) + 10, (75 : ℚ) + 5⟩
          (handleViewportMouseDown ⟨100, 75⟩ ⟨100, 75⟩)
          ⟨0, 0, 200, 150⟩ 1 1 800 600 = some off →
      (800 / 2 - off.x) / 1 - (minimapToWorld ⟨0, 0, 200, 150⟩ 1 100 75).x
          = 10 / fitScale ⟨0, 0, 200, 150⟩ 1 ∧
      (600 / 2 - off.y) / 1 - (minimapToWorld ⟨0, 0, 200, 150⟩ 1 100 75).y
          = 5 / fitScale ⟨0, 0, 200, 150⟩ 1 :=
  drag_continuity ⟨0, 0, 200, 150⟩ 1 1 800 600 ⟨100, 75⟩ 10 5 (by norm_num)
    (by norm_num) (by norm_num) (by norm_num) (by norm_num)

/-- Source: the comparator passed to `[...layers].sort` in `sortedLayers` —
groups to the back of the paint order (i.e. earlier in the list), selected
layer to the front (later in the list).  Note the group checks come before
the selected-id checks. -/
def layerCompare (selectedLayerId : Option String) (a b : LayerData) : Int :=
  if a.type = LayerType.group ∧ b.type ≠ LayerType.group then -1
  else if b.type = LayerType.group ∧ a.type ≠ LayerType.group then 1
  else if some a.id = selectedLayerId then 1
  else if some b.id = selectedLayerId then -1
  else 0

/-- Strict before relation induced by the comparator (`compare(a, b) < 0`). -/
def layerLt (selectedLayerId : Option String) (a b : LayerData) : Bool :=
  layerCompare selectedLayerId a b < 0

/-- Stable insertion of a later element into an already-ordered earlier run:
it goes after every element it is not strictly before. -/
def insertLayer (selectedLayerId : Option String) (x : LayerData) :
    List LayerData → List LayerData
  | [] => [x]
  | y :: ys =>
    if layerLt selectedLayerId x y then x :: y :: ys
    else y :: insertLayer selectedLayerId x ys

/-- Source: `sortedLayers` — `[...layers].sort(comparator)`.  ES2019 requires
`Array.prototype.sort` to be stable, and for a consistent comparator (which
this one is whenever at most one element carries the selected id) the stable
sorted result is unique; stable insertion sort realizes it. -/
def sortedLayers (layers : List LayerData) (selectedLayerId : Option String) :
    List LayerData :=
  layers.foldl (fun acc x => insertLayer selectedLayerId x acc) []

/-- Rank of a layer under the comparator: groups before non-groups, and
within a class the selected layer last. -/
def layerKey (selectedLayerId : Option String) (a : LayerData) : ℕ :=
  (if a.type = LayerType.group then 0 else 2) + (if some a.id = selectedLayerId then 1 else 0)

/-- The comparator's strict order is exactly the rank order. -/
theorem layerLt_iff (sel : Option String) (a b : LayerData) :
    layerLt sel a b = true ↔ layerKey sel a < layerKey sel b := by
  simp only [layerLt, layerCompare, layerKey, decide_eq_true_eq]
  split_ifs <;> simp_all

/-- Membership through `insertLayer`. -/
theorem mem_insertLayer (sel : Option String) (x : LayerData) (l : List LayerData)
    (z : LayerData) : z ∈ insertLayer sel x l ↔ z = x ∨ z ∈ l := by
  induction l with
  | nil => simp [insertLayer]
  | cons y ys ih =>
    simp only [insertLayer]
    split
    · simp [List.mem_cons]
    · simp only [List.mem_cons, ih]
      tauto

/-- Inserting an element permutes consing it. -/
theorem insertLayer_perm (sel : Option String) (x : LayerData) (l : List LayerData) :
    (insertLayer sel x l).Perm (x :: l) := by
  induction l with
  | nil => exact List.Perm.refl _
  | cons y ys ih =>
    simp only [insertLayer]
    split
    · exact List.Perm.refl _
    · exact List.Perm.trans (ih.cons y) (List.Perm.swap x y ys)

/-- Insertion preserves the rank ordering of the accumulated run. -/
theorem insertLayer_pairwise (sel : Option String) (x : LayerData) (l : List LayerData)
    (h : l.Pairwise (fun a b => layerKey sel a ≤ layerKey sel b)) :
    (insertLayer sel x l).Pairwise (fun a b => layerKey sel a ≤ layerKey sel b) := by
  induction l with
  | nil => simp [insertLayer]
  | cons y ys ih =>
    rcases List.pairwise_cons.mp h with ⟨hy, hys⟩
    simp only [insertLayer]
    split
    · rename_i hlt
      have hxy : layerKey sel x < layerKey sel y := (layerLt_iff sel x y).mp hlt
      refine List.pairwise_cons.mpr ⟨?_, h⟩
      intro z hz
      rcases List.mem_cons.mp hz with hzy | hz
      · rw [hzy]; exact le_of_lt hxy
      · exact le_of_lt (lt_of_lt_of_le hxy (hy z hz))
    · rename_i hlt
      have hyx : layerKey sel y ≤ layerKey sel x := by
        have hn : ¬ layerKey sel x < layerKey sel y := by
          intro hk
          exact hlt ((layerLt_iff sel x y).mpr hk)
        omega
      refine List.pairwise_cons.mpr ⟨?_, ih hys⟩
      intro z hz
      rcases (mem_insertLayer sel x ys z).mp hz with hzx | hz
      · rw [hzx]; exact hyx
      · exact hy z hz

/-- Fold of insertions preserves the rank ordering. -/
theorem foldl_insertLayer_pairwise (sel : Option String) :
    ∀ (l acc : List LayerData),
      acc.Pairwise (fun a b => layerKey sel a ≤ layerKey sel b) →
      (l.foldl (fun a x => insertLayer sel x a) acc).Pairwise
        (fun a b => layerKey sel a ≤ layerKey sel b) := by
  intro l
  induction l with
  | nil => intro acc hacc; simpa using hacc
  | cons x xs ih =>
    intro acc hacc
    rw [List.foldl_cons]
    exact ih _ (insertLayer_pairwise sel x acc hacc)

/-- Fold of insertions permutes appending. -/
theorem foldl_insertLayer_perm (sel : Option String) :
    ∀ (l acc : List LayerData),
      (l.foldl (fun a x => insertLayer sel x a) acc).Perm (acc ++ l) := by
  intro l
  induction l with
  | nil => intro acc; simp
  | cons x xs ih =>
    intro acc
    rw [List.foldl_cons]
    refine List.Perm.trans (ih (insertLayer sel x acc)) ?_
    refine List.Perm.trans ((insertLayer_perm sel x acc).append_right xs) ?_
    exact List.perm_middle.symm

/-- Concrete selected group layer used as the C3 counterexample. -/
def demoGroupLayer : LayerData :=
  { id := "g", type := LayerType.group, x := 0, y := 0, width := 1, height := 1 }

/-- Concrete non-group layer used as the C3 counterexample. -/
def demoImageLayer : LayerData :=
  { id := "p", type := LayerType.image, x := 0, y := 0, width := 1, height := 1 }

/-- Counterexample to C3 as stated: when the selected layer is itself a
group and a non-group layer is present, the selected layer is sorted first,
not last — the group/non-group checks run before the selected-id checks. -/
theorem sortedLayers_selected_group_not_last :
    sortedLayers [demoGroupLayer, demoImageLayer] (some "g")
      = [demoGroupLayer, demoImageLayer] ∧
    (sortedLayers [demoGroupLayer, demoImageLayer] (some "g")).getLast?
      = some demoImageLayer ∧
    demoImageLayer.id ≠ demoGroupLayer.id ∧
    some demoGroupLayer.id = some "g" := by
  refine ⟨by decide, by decide, by decide, by decide⟩

/-- C3 amended: the render order is a permutation of the layers in which
every group-type layer precedes every non-group layer, and the selected
layer comes after every other layer of its own class — so it is strictly
last whenever it is a non-group layer (or all layers are groups), while a
selected group layer still precedes all non-group layers. -/
theorem sortedLayers_order (layers : List LayerData) (sel : Option String) :
    (sortedLayers layers sel).Perm layers ∧
    (sortedLayers layers sel).Pairwise (fun a b =>
      (b.type = LayerType.group → a.type = LayerType.group) ∧
      (some a.id = sel →
        (a.type = LayerType.group ∧ b.type ≠ LayerType.group) ∨ some b.id = sel)) := by
  constructor
  · have h := foldl_insertLayer_perm sel layers []
    simpa [sortedLayers] using h
  · have hp := foldl_insertLayer_pairwise sel layers [] List.Pairwise.nil
    refine List.Pairwise.imp ?_ hp
    intro a b hk
    simp only [layerKey] at hk
    constructor
    · intro hbg
      by_contra hag
      simp only [hag, hbg, if_true, if_false] at hk
      split_ifs at hk <;> omega
    · intro hasel
      by_cases hag : a.type = LayerType.group
      · by_cases hbg : b.type = LayerType.group
        · right
          simp only [hag, hbg, hasel, if_true] at hk
          split_ifs at hk with hbsel
          · exact hbsel
          · omega
        · exact Or.inl ⟨hag, hbg⟩
      · have hbg : b.type ≠ LayerType.group := by
          intro hbg
          simp only [hag, hbg, if_true, if_false] at hk
          split_ifs at hk <;> omega
        right
        simp only [hag, hbg, hasel, if_true, if_false] at hk
        split_ifs at hk with hbsel
        · exact hbsel
        · omega

/-- Source: `MAX_HISTORY_STATES` in the persistence module. -/
def MAX_HISTORY_STATES : ℕ := 20

/-- Source: `saveHistory` — trims the history to its last
`MAX_HISTORY_STATES` entries (`history.slice(-MAX_HISTORY_STATES)`, i.e.
dropping all but the final at-most-20) and shifts the index down by the
number of dropped entries, clamped at 0.  The IndexedDB transaction around
it only stores the resulting record `{history, index}`, which this function
returns. -/
def saveHistory (history : List (List LayerData)) (historyIndex : ℤ) :
    List (List LayerData) × ℤ :=
  let trimmedHistory := history.drop (history.length - MAX_HISTORY_STATES)
  let adjustedIndex :=
    max 0 (historyIndex - ((history.length : ℤ) - (trimmedHistory.length : ℤ)))
  (trimmedHistory, adjustedIndex)

/-- C9: the persisted history is the suffix of the most recent at-most-20
entries, and the persisted index is the input index lowered by the number of
trimmed entries and clamped below at 0, hence non-negative; the persisted
length never exceeds 20. -/
theorem saveHistory_spec (history : List (List LayerData)) (i : ℤ) :
    (saveHistory history i).1.length = min history.length MAX_HISTORY_STATES ∧
    (saveHistory history i).1.length ≤ 20 ∧
    List.IsSuffix (saveHistory history i).1 history ∧
    (saveHistory history i).2
      = max 0 (i - (history.length - min history.length MAX_HISTORY_STATES : ℕ)) ∧
    0 ≤ (saveHistory history i).2 := by
  have hlen : (saveHistory history i).1.length = min history.length MAX_HISTORY_STATES := by
    simp only [saveHistory, List.length_drop, MAX_HISTORY_STATES]
    omega
  refine ⟨hlen, ?_, ?_, ?_, ?_⟩
  · rw [hlen]
    simp [MAX_HISTORY_STATES]
  · exact List.drop_suffix _ _
  · simp only [saveHistory, List.length_drop, MAX_HISTORY_STATES]
    congr 1
    omega
  · exact le_max_left _ _

/-- Source: `THUMBNAIL_SIZE` in the thumbnail service. -/
def THUMBNAIL_SIZE : ℚ := 256

/-- Source: the dimension computation inside `generateThumbnail` — both
dimensions start at `THUMBNAIL_SIZE` and the branch rescales one of them to
preserve the source aspect ratio.  The canvas drawing and JPEG encoding
around this computation are browser I/O and are not modelled. -/
def generateThumbnailDims (naturalWidth naturalHeight : ℚ) : ℚ × ℚ :=
  if naturalWidth > naturalHeight then
    (THUMBNAIL_SIZE, naturalHeight / naturalWidth * THUMBNAIL_SIZE)
  else
    (naturalWidth / naturalHeight * THUMBNAIL_SIZE, THUMBNAIL_SIZE)

/-- C10: for positive source dimensions the thumbnail keeps the source
aspect ratio (cross-multiplied form), its larger dimension is exactly 256,
and each branch computes the dimensions the claim states. -/
theorem generateThumbnailDims_spec (nw nh : ℚ) (hw : 0 < nw) (hh : 0 < nh) :
    (nw > nh → (generateThumbnailDims nw nh).1 = 256 ∧
      (generateThumbnailDims nw nh).2 = 256 * nh / nw) ∧
    (¬ nw > nh → (generateThumbnailDims nw nh).2 = 256 ∧
      (generateThumbnailDims nw nh).1 = 256 * nw / nh) ∧
    (generateThumbnailDims nw nh).1 * nh = (generateThumbnailDims nw nh).2 * nw ∧
    max (generateThumbnailDims nw nh).1 (generateThumbnailDims nw nh).2 = 256 := by
  unfold generateThumbnailDims THUMBNAIL_SIZE
  split_ifs with hcase
  · have hle : nh / nw * 256 ≤ 256 := by
      have h1 : nh / nw < 1 := (div_lt_one hw).mpr hcase
      nlinarith
    refine ⟨fun _ => ⟨rfl, ?_⟩, fun hn => absurd hcase hn, ?_, ?_⟩
    · field_simp
      ring
    · field_simp
      ring
    · simp only
      exact max_eq_left hle
  · have hnwle : nw ≤ nh := not_lt.mp hcase
    have hle : nw / nh * 256 ≤ 256 := by
      have h1 : nw / nh ≤ 1 := (div_le_one hh).mpr hnwle
      nlinarith
    refine ⟨fun hgt => absurd hgt hcase, fun _ => ⟨rfl, ?_⟩, ?_, ?_⟩
    · field_simp
      ring
    · field_simp
      ring
    · simp only
      exact max_eq_right hle

/-- Witness for C10 at a concrete 512×256 source image. -/
theorem generateThumbnailDims_witness :
    (generateThumbnailDims 512 256).1 * 256 = (generateThumbnailDims 512 256).2 * 512 ∧
    max (generateThumbnailDims 512 256).1 (generateThumbnailDims 512 256).2 = 256 :=
  ⟨(generateThumbnailDims_spec 512 256 (by norm_num) (by norm_num)).2.2.1,
   (generateThumbnailDims_spec 512 256 (by norm_num) (by norm_num)).2.2.2⟩

end AICanvas
